import Mathlib

/-!
Shallow embedding of `src/sim/main.c` (microsoft/qsharp simulator demo).

The C file drives an external quantum backend through seven intrinsic
functions (`__quantum__qis__x__body`, `__quantum__qis__h__body`,
`__quantum__qis__cz__body`, `__quantum__qis__mresetz__body`,
`__quantum__qis__read_result__body`, `__quantum__rt__array_record_output`,
`__quantum__rt__result_record_output`).  The core never implements them, so
the backend is modelled by an oracle `bits : ℕ → ℕ` giving the classical bit
stored by the k-th measure-and-reset call, together with a map
`slots : ℕ → ℕ` holding the last value stored in each classical result slot
(the backend contract of spec §4.3: the read primitive returns the most
recently stored value for a slot).  Every intrinsic call is appended to a
trace, making call sequences observable.

Stateful C code becomes explicit state passing; the unbounded `while` loop of
`random_numbers_over_500` is given a fuel parameter, with termination
statements quantifying over fuel.  All C `int` values that occur in
contract-compliant runs are the nonnegative numbers 0..511, so they are
embedded as `ℕ` (bitwise `|` is `Nat.lor`, `<<` is `Nat.shiftLeft`).
-/

/-- One intrinsic call at the backend boundary, with its arguments.
The constructors correspond, in order, to the seven declared intrinsics. -/
inductive Call where
  | x (q : ℕ)
  | h (q : ℕ)
  | cz (control target : ℕ)
  | mresetz (q r : ℕ)
  | read (r : ℕ)
  | arrayRec (size label : ℕ)
  | resultRec (rid label : ℕ)
deriving DecidableEq, Repr

/-- Backend-visible state threaded through the embedded program: the
measurement oracle `bits`, how many measure-and-reset calls have happened
(`mcount`), the last bit stored in each classical result slot (`slots`),
and the list of intrinsic calls made so far (`trace`). -/
structure SimState where
  bits : ℕ → ℕ
  mcount : ℕ
  slots : ℕ → ℕ
  trace : List Call

/-- Intrinsic `__quantum__qis__x__body`: declared by the C file; the core
only records the call. -/
def qis_x_body (q : ℕ) (s : SimState) : SimState :=
  { s with trace := s.trace ++ [Call.x q] }

/-- Intrinsic `__quantum__qis__h__body`. -/
def qis_h_body (q : ℕ) (s : SimState) : SimState :=
  { s with trace := s.trace ++ [Call.h q] }

/-- Intrinsic `__quantum__qis__cz__body`. -/
def qis_cz_body (control target : ℕ) (s : SimState) : SimState :=
  { s with trace := s.trace ++ [Call.cz control target] }

/-- Intrinsic `__quantum__qis__mresetz__body`: measures qubit `q`, storing
the next oracle bit into slot `r` (spec §4.3: stores exactly one classical
bit into the named slot). -/
def qis_mresetz_body (q r : ℕ) (s : SimState) : SimState :=
  { s with trace := s.trace ++ [Call.mresetz q r],
           slots := Function.update s.slots r (s.bits s.mcount),
           mcount := s.mcount + 1 }

/-- Intrinsic `__quantum__qis__read_result__body`: returns the last value
stored in slot `r` (spec §4.3), recording the call. -/
def qis_read_result_body (r : ℕ) (s : SimState) : ℕ × SimState :=
  (s.slots r, { s with trace := s.trace ++ [Call.read r] })

/-- Intrinsic `__quantum__rt__array_record_output`: declared by the C file;
the core only records the call. -/
def rt_array_record_output (size label : ℕ) (s : SimState) : SimState :=
  { s with trace := s.trace ++ [Call.arrayRec size label] }

/-- Intrinsic `__quantum__rt__result_record_output`. -/
def rt_result_record_output (rid label : ℕ) (s : SimState) : SimState :=
  { s with trace := s.trace ++ [Call.resultRec rid label] }

/-- Utility `CX(control, target)` from main.c:
`h(target); cz(control, target); h(target)`. -/
def CX (control target : ℕ) (s : SimState) : SimState :=
  qis_h_body target (qis_cz_body control target (qis_h_body target s))

/-- Utility `H(qubit)` from main.c. -/
def H (qubit : ℕ) (s : SimState) : SimState :=
  qis_h_body qubit s

/-- Utility `MResetZ(qubit, result)` from main.c: measure-and-reset into
slot `result`, then read that slot back and return the bit. -/
def MResetZ (qubit result : ℕ) (s : SimState) : ℕ × SimState :=
  qis_read_result_body result (qis_mresetz_body qubit result s)

/-- Utility `RecordResult(result)` from main.c: records slot `result` with a
null label. -/
def RecordResult (result : ℕ) (s : SimState) : SimState :=
  rt_result_record_output result 0 s

/-- Body of make_random_state's `for (int i = 0; i < 9; i++) H(i);` loop:
`n` iterations remain and `i` is the current loop counter. -/
def make_random_state_aux (i : ℕ) : ℕ → SimState → SimState
  | 0, s => s
  | n + 1, s => make_random_state_aux (i + 1) n (H i s)

/-- Program function `make_random_state` from main.c. -/
def make_random_state (s : SimState) : SimState :=
  make_random_state_aux 0 9 s

/-- Body of measure_as_int's loop: `n` iterations remain, `i` is the loop
counter and `acc` the accumulator `result`; each step performs
`result = result | (MResetZ(i, i) << i)`. -/
def measure_as_int_aux (i acc : ℕ) : ℕ → SimState → ℕ × SimState
  | 0, s => (acc, s)
  | n + 1, s =>
      let p := MResetZ i i s
      measure_as_int_aux (i + 1) (acc ||| (p.1 <<< i)) n p.2

/-- Program function `measure_as_int` from main.c. -/
def measure_as_int (s : SimState) : ℕ × SimState :=
  measure_as_int_aux 0 0 9 s

/-- Body of the `for (int i = 8; i >= 0; i--) RecordResult(i);` loop of
`random_numbers_over_500`: `record_results_aux n` records slots
`n-1, n-2, ..., 0` in that order. -/
def record_results_aux : ℕ → SimState → SimState
  | 0, s => s
  | n + 1, s => record_results_aux n (RecordResult n s)

/-- The `while (result < 500)` loop of `random_numbers_over_500`, with a
fuel bound on the number of body executions (the C loop is unbounded; a run
with `none` outcome means fuel ran out before the predicate was met). -/
def rno_loop (result : ℕ) (fuel : ℕ) (s : SimState) : Option ℕ × SimState :=
  if result < 500 then
    match fuel with
    | 0 => (none, s)
    | f + 1 =>
        let s1 := make_random_state s
        let p := measure_as_int s1
        rno_loop p.1 f p.2
  else (some result, s)

/-- Program function `random_numbers_over_500` from main.c: rejection
sampling until the measured 9-bit integer is at least 500, then record slots
8 down to 0.  Returns the accepted accumulator, or `none` if fuel ran out. -/
def random_numbers_over_500 (fuel : ℕ) (s : SimState) : Option ℕ × SimState :=
  let p := rno_loop 0 fuel s
  match p.1 with
  | none => (none, p.2)
  | some r => (some r, record_results_aux 9 p.2)

/-- Body of full_entangle's `for (int i = 8; i >= 0; i--)` loop:
`full_entangle_aux n` performs `MResetZ(i, i); RecordResult(i);` for
`i = n-1` down to `0`. -/
def full_entangle_aux : ℕ → SimState → SimState
  | 0, s => s
  | n + 1, s => full_entangle_aux n (RecordResult n (MResetZ n n s).2)

/-- Program function `full_entangle` from main.c: H on qubit 0, a chain of
`CX(i, i+1)` for `i = 0..7`, then measure-and-record qubits 8 down to 0. -/
def full_entangle (s : SimState) : SimState :=
  full_entangle_aux 9
    (CX 7 8 (CX 6 7 (CX 5 6 (CX 4 5 (CX 3 4 (CX 2 3 (CX 1 2 (CX 0 1 (H 0 s)))))))))

/-- Entry point `ENTRYPOINT__main` from main.c: runs only
`random_numbers_over_500` (the `full_entangle();` call is commented out). -/
def ENTRYPOINT__main (fuel : ℕ) (s : SimState) : Option ℕ × SimState :=
  random_numbers_over_500 fuel s

/-- Initial state for a run against a backend whose k-th measurement stores
bit `b k`: no calls made yet, all slots hold 0. -/
def initState (b : ℕ → ℕ) : SimState :=
  { bits := b, mcount := 0, slots := fun _ => 0, trace := [] }

/-- Calls made by `n` iterations of the preparation loop starting at qubit
`i`: a Hadamard per qubit in increasing index order. -/
def hTrace (i : ℕ) : ℕ → List Call
  | 0 => []
  | n + 1 => Call.h i :: hTrace (i + 1) n

/-- Calls made by `n` iterations of the measurement loop starting at qubit
`i`: a measure-and-reset followed by a read, per qubit, increasing order. -/
def mTrace (i : ℕ) : ℕ → List Call
  | 0 => []
  | n + 1 => Call.mresetz i i :: Call.read i :: mTrace (i + 1) n

/-- Calls made by `record_results_aux n`: slots `n-1` down to `0`,
null label. -/
def recTrace : ℕ → List Call
  | 0 => []
  | n + 1 => Call.resultRec n 0 :: recTrace n

/-- Value of the accumulator after `n` more measurement-loop steps, when the
loop counter is `i`, the accumulator is `acc`, and the next oracle bit is
`b m`: mirrors `result = result | (bit << i)`. -/
def chunkAux (b : ℕ → ℕ) (m i acc : ℕ) : ℕ → ℕ
  | 0 => acc
  | n + 1 => chunkAux b (m + 1) (i + 1) (acc ||| (b m <<< i)) n

/-- The accumulator produced by one full `measure_as_int` call whose first
measurement is the `m`-th overall. -/
def chunkVal (b : ℕ → ℕ) (m : ℕ) : ℕ :=
  chunkAux b m 0 0 9

/-- The accumulator of the `k`-th (0-based) iteration of the sampling loop
started on a fresh backend: iteration `k` consumes oracle bits
`9k, ..., 9k+8`. -/
def attemptVal (b : ℕ → ℕ) (k : ℕ) : ℕ :=
  chunkVal b (9 * k)

/-- Slot map after `n` measurement-loop steps: slots `i, ..., i+n-1` receive
oracle bits `b m, ..., b (m+n-1)` in order. -/
def writeSlots (b : ℕ → ℕ) : ℕ → ℕ → ℕ → (ℕ → ℕ) → (ℕ → ℕ)
  | _, _, 0, sl => sl
  | m, i, n + 1, sl => writeSlots b (m + 1) (i + 1) n (Function.update sl i (b m))

/-- Intrinsic calls made by one execution of the sampling-loop body
(`make_random_state(); result = measure_as_int();`): nine Hadamards then
nine measure/read pairs.  The calls are the same in every iteration; only
the oracle bits consumed differ. -/
def iterTrace : List Call :=
  hTrace 0 9 ++ mTrace 0 9

/-- One execution of the sampling-loop body, as a state transformer. -/
def iterStep (s : SimState) : SimState :=
  (measure_as_int (make_random_state s)).2

/-- State after `k` executions of the sampling-loop body. -/
def afterIters : ℕ → SimState → SimState
  | 0, s => s
  | k + 1, s => afterIters k (iterStep s)

/-- Intrinsic calls made by `k` executions of the sampling-loop body. -/
def loopTrace : ℕ → List Call
  | 0 => []
  | k + 1 => iterTrace ++ loopTrace k

/-- Index of the first accepted sampling attempt (accumulator at least 500)
among the next `fuel` attempts of a backend whose next measurement is the
`m`-th overall; `none` when all of them are rejected. -/
def succIdx (b : ℕ → ℕ) (m : ℕ) : ℕ → Option ℕ
  | 0 => none
  | f + 1 =>
      if 500 ≤ chunkVal b m then some 0
      else Option.map (fun j => j + 1) (succIdx b (m + 9) f)

/-- Weighted-sum value of the `n` oracle bits `b m, ..., b (m+n-1)` placed at
bit positions `i, ..., i+n-1`. -/
def valBits (b : ℕ → ℕ) : ℕ → ℕ → ℕ → ℕ
  | _, _, 0 => 0
  | m, i, n + 1 => b m * 2 ^ i + valBits b (m + 1) (i + 1) n

/-- The decreasing index list `[n-1, ..., 0]` walked by the record loops. -/
def declist : ℕ → List ℕ
  | 0 => []
  | n + 1 => n :: declist n

/-- The integer decoded from the recorded output stream: slot values read in
the recorded order 8, 7, ..., 0, interpreted most-significant-first. -/
def recordedValue (sl : ℕ → ℕ) : ℕ :=
  (declist 9).foldl (fun a i => 2 * a + sl i) 0

/-- Whether a call is a record-scalar-output call. -/
def isRecordCall (c : Call) : Bool :=
  match c with
  | Call.resultRec _ _ => true
  | _ => false

/-- The subsequence of record-scalar-output calls in a trace: the recorded
output stream. -/
def recordsOf (t : List Call) : List Call :=
  t.filter isRecordCall

/-- Whether a call is one of the four intrinsics actually used by the
rejection-sampling program: apply-H, measure-and-reset, read-bit,
record-scalar-output. -/
def usedCall (c : Call) : Bool :=
  match c with
  | Call.h _ => true
  | Call.mresetz _ _ => true
  | Call.read _ => true
  | Call.resultRec _ _ => true
  | _ => false

/-- Whether a measure-and-reset call targets equal qubit and slot indices;
true on every other kind of call. -/
def mresetzDiag (c : Call) : Bool :=
  match c with
  | Call.mresetz q r => q == r
  | _ => true

/-- Intrinsic calls of the 3-call controlled-NOT decomposition. -/
def cxTrace (control target : ℕ) : List Call :=
  [Call.h target, Call.cz control target, Call.h target]

/-- Trace of `full_entangle`'s measure-and-record loop: for each qubit from
`n-1` down to `0`, a measure-and-reset, the read of its slot, and the record
of that same slot, before moving to the next lower qubit. -/
def pairTrace : ℕ → List Call
  | 0 => []
  | n + 1 => Call.mresetz n n :: Call.read n :: Call.resultRec n 0 :: pairTrace n

/-- The complete intrinsic trace of one `full_entangle` run: one leading
Hadamard on qubit 0, the eight controlled-NOT decompositions `CX(i, i+1)`
for `i = 0..7` in increasing order (24 gate calls), then the nine
measure-and-record groups for qubits 8 down to 0. -/
def feTrace : List Call :=
  [Call.h 0] ++ cxTrace 0 1 ++ cxTrace 1 2 ++ cxTrace 2 3 ++ cxTrace 3 4 ++
    cxTrace 4 5 ++ cxTrace 5 6 ++ cxTrace 6 7 ++ cxTrace 7 8 ++ pairTrace 9

/-- Whether a call is a measure-and-reset call. -/
def isMresetzCall (c : Call) : Bool :=
  match c with
  | Call.mresetz _ _ => true
  | _ => false

/-- Number of measure-and-reset calls in a trace. -/
def mresetzCount (t : List Call) : ℕ :=
  (t.filter isMresetzCall).length

/-- Scripted backend for C7: attempt 1 reads bits 0..8 as 0,...,0,1
(accumulator 256 < 500), attempt 2 reads bits 9..17 as the little-endian
bits of 500 (accumulator 500). -/
def scriptC7 (n : ℕ) : ℕ :=
  if n = 8 ∨ n = 11 ∨ n = 13 ∨ n = 14 ∨ n = 15 ∨ n = 16 ∨ n = 17 then 1 else 0

/-- Loop-counter-generalised characterisation of the preparation loop. -/
theorem make_random_state_aux_spec :
    ∀ (n i : ℕ) (s : SimState),
      make_random_state_aux i n s =
        { s with trace := s.trace ++ hTrace i n } := by
  intro n
  induction n with
  | zero => intro i s; simp [make_random_state_aux, hTrace]
  | succ n ih =>
      intro i s
      rw [make_random_state_aux, ih]
      simp [H, qis_h_body, hTrace]

/-- Loop-counter-generalised characterisation of the measurement loop: it
returns the `chunkAux` accumulator, advances `mcount` by `n`, writes the
consumed oracle bits into slots `i..i+n-1`, and appends `mTrace i n`. -/
theorem measure_as_int_aux_spec :
    ∀ (n i acc : ℕ) (s : SimState),
      measure_as_int_aux i acc n s =
        (chunkAux s.bits s.mcount i acc n,
         { bits := s.bits, mcount := s.mcount + n,
           slots := writeSlots s.bits s.mcount i n s.slots,
           trace := s.trace ++ mTrace i n }) := by
  intro n
  induction n with
  | zero => intro i acc s; simp [measure_as_int_aux, chunkAux, writeSlots, mTrace]
  | succ n ih =>
      intro i acc s
      rw [measure_as_int_aux]
      have hval : (MResetZ i i s).1 = s.bits s.mcount := by
        simp [MResetZ, qis_read_result_body, qis_mresetz_body]
      rw [hval, ih]
      simp only [MResetZ, qis_read_result_body, qis_mresetz_body]
      simp [chunkAux, writeSlots, mTrace]
      omega

/-- `measure_as_int` computes `chunkVal`, advances `mcount` by 9, writes the
nine consumed bits into slots 0..8, and appends `mTrace 0 9`. -/
theorem measure_as_int_spec (s : SimState) :
    measure_as_int s =
      (chunkVal s.bits s.mcount,
       { bits := s.bits, mcount := s.mcount + 9,
         slots := writeSlots s.bits s.mcount 0 9 s.slots,
         trace := s.trace ++ mTrace 0 9 }) := by
  rw [measure_as_int, measure_as_int_aux_spec]; rfl

/-- Pointwise description of `writeSlots`. -/
theorem writeSlots_apply (b : ℕ → ℕ) :
    ∀ (n m i : ℕ) (sl : ℕ → ℕ) (j : ℕ),
      writeSlots b m i n sl j =
        if i ≤ j ∧ j < i + n then b (m + (j - i)) else sl j := by
  intro n
  induction n with
  | zero =>
      intro m i sl j
      simp only [writeSlots]
      rw [if_neg (by omega)]
  | succ n ih =>
      intro m i sl j
      rw [writeSlots, ih]
      by_cases h1 : i + 1 ≤ j ∧ j < i + 1 + n
      · rw [if_pos h1, if_pos (by omega)]
        congr 1; omega
      · rw [if_neg h1]
        rcases eq_or_ne j i with rfl | hji
        · rw [Function.update_same, if_pos (by omega)]
          simp
        · rw [Function.update_noteq hji, if_neg (by omega)]

/-- Full characterisation of one sampling-loop body execution. -/
theorem iter_step_spec (s : SimState) :
    measure_as_int (make_random_state s) =
      (chunkVal s.bits s.mcount,
       { bits := s.bits, mcount := s.mcount + 9,
         slots := writeSlots s.bits s.mcount 0 9 s.slots,
         trace := s.trace ++ iterTrace }) := by
  rw [make_random_state, make_random_state_aux_spec, measure_as_int_spec]
  simp [iterTrace, chunkVal]

/-- Field form of `iter_step_spec`. -/
theorem iterStep_eq (s : SimState) :
    iterStep s =
      { bits := s.bits, mcount := s.mcount + 9,
        slots := writeSlots s.bits s.mcount 0 9 s.slots,
        trace := s.trace ++ iterTrace } := by
  rw [iterStep, iter_step_spec]

theorem afterIters_zero (s : SimState) : afterIters 0 s = s := rfl

theorem afterIters_succ (k : ℕ) (s : SimState) :
    afterIters (k + 1) s = afterIters k (iterStep s) := rfl

theorem afterIters_bits : ∀ (k : ℕ) (s : SimState), (afterIters k s).bits = s.bits := by
  intro k
  induction k with
  | zero => intro s; rfl
  | succ k ih => intro s; rw [afterIters_succ, ih, iterStep_eq]

theorem afterIters_mcount :
    ∀ (k : ℕ) (s : SimState), (afterIters k s).mcount = s.mcount + 9 * k := by
  intro k
  induction k with
  | zero => intro s; simp [afterIters_zero]
  | succ k ih => intro s; rw [afterIters_succ, ih, iterStep_eq]; simp; omega

theorem afterIters_trace :
    ∀ (k : ℕ) (s : SimState), (afterIters k s).trace = s.trace ++ loopTrace k := by
  intro k
  induction k with
  | zero => intro s; simp [afterIters_zero, loopTrace]
  | succ k ih => intro s; rw [afterIters_succ, ih, iterStep_eq, loopTrace]; simp

/-- After at least one loop body, slots 0..8 hold the bits consumed by the
most recent iteration; other slots are untouched. -/
theorem afterIters_slots :
    ∀ (k : ℕ) (s : SimState) (j : ℕ),
      (afterIters (k + 1) s).slots j =
        if j < 9 then s.bits (s.mcount + 9 * k + j) else s.slots j := by
  intro k
  induction k with
  | zero =>
      intro s j
      rw [afterIters_succ, afterIters_zero, iterStep_eq]
      show writeSlots s.bits s.mcount 0 9 s.slots j = _
      rw [writeSlots_apply]
      rcases Nat.lt_or_ge j 9 with hj | hj
      · rw [if_pos ⟨by omega, by omega⟩, if_pos hj]
        congr 1
      · rw [if_neg (by omega), if_neg (by omega)]
  | succ k ih =>
      intro s j
      rw [afterIters_succ, ih, iterStep_eq]
      dsimp only
      rcases Nat.lt_or_ge j 9 with hj | hj
      · rw [if_pos hj, if_pos hj]
        congr 1
        omega
      · rw [if_neg (by omega), if_neg (by omega)]
        show writeSlots s.bits s.mcount 0 9 s.slots j = _
        rw [writeSlots_apply, if_neg (by omega)]

theorem succIdx_none :
    ∀ (fuel : ℕ) (b : ℕ → ℕ) (m : ℕ), succIdx b m fuel = none →
      ∀ j < fuel, chunkVal b (m + 9 * j) < 500 := by
  intro fuel
  induction fuel with
  | zero => intro b m _ j hj; omega
  | succ f ih =>
      intro b m h j hj
      rw [succIdx] at h
      by_cases h0 : 500 ≤ chunkVal b m
      · rw [if_pos h0] at h; exact absurd h (by simp)
      · rw [if_neg h0] at h
        rcases Nat.eq_zero_or_pos j with rfl | hjpos
        · simpa using Nat.lt_of_not_le h0
        · obtain ⟨j', rfl⟩ : ∃ j', j = j' + 1 := ⟨j - 1, by omega⟩
          have hsub : succIdx b (m + 9) f = none := by
            cases hc : succIdx b (m + 9) f with
            | none => rfl
            | some v => rw [hc] at h; exact absurd h (by simp)
          have := ih b (m + 9) hsub j' (by omega)
          have harith : m + 9 + 9 * j' = m + 9 * (j' + 1) := by ring
          rwa [harith] at this

theorem succIdx_some :
    ∀ (fuel : ℕ) (b : ℕ → ℕ) (m j : ℕ), succIdx b m fuel = some j →
      500 ≤ chunkVal b (m + 9 * j) ∧ (∀ i < j, chunkVal b (m + 9 * i) < 500) ∧
        j < fuel := by
  intro fuel
  induction fuel with
  | zero => intro b m j h; exact absurd h (by simp [succIdx])
  | succ f ih =>
      intro b m j h
      rw [succIdx] at h
      by_cases h0 : 500 ≤ chunkVal b m
      · rw [if_pos h0] at h
        obtain rfl : j = 0 := by simpa using h.symm
        refine ⟨by simpa using h0, fun i hi => absurd hi (by omega), by omega⟩
      · rw [if_neg h0] at h
        cases hc : succIdx b (m + 9) f with
        | none => rw [hc] at h; exact absurd h (by simp)
        | some j' =>
            rw [hc] at h
            obtain rfl : j = j' + 1 := by simpa using h.symm
            obtain ⟨ha, hmin, hlt⟩ := ih b (m + 9) j' hc
            refine ⟨by rw [show m + 9 * (j' + 1) = m + 9 + 9 * j' by ring]; exact ha,
                    ?_, by omega⟩
            intro i hi
            rcases Nat.eq_zero_or_pos i with rfl | hipos
            · simpa using Nat.lt_of_not_le h0
            · obtain ⟨i', rfl⟩ : ∃ i', i = i' + 1 := ⟨i - 1, by omega⟩
              rw [show m + 9 * (i' + 1) = m + 9 + 9 * i' by ring]
              exact hmin i' (by omega)

theorem succIdx_of_min :
    ∀ (fuel : ℕ) (b : ℕ → ℕ) (m j : ℕ),
      500 ≤ chunkVal b (m + 9 * j) → (∀ i < j, chunkVal b (m + 9 * i) < 500) →
      j < fuel → succIdx b m fuel = some j := by
  intro fuel
  induction fuel with
  | zero => intro b m j _ _ h; omega
  | succ f ih =>
      intro b m j hacc hmin hlt
      rw [succIdx]
      rcases Nat.eq_zero_or_pos j with rfl | hjpos
      · rw [if_pos (by simpa using hacc)]
      · obtain ⟨j', rfl⟩ : ∃ j', j = j' + 1 := ⟨j - 1, by omega⟩
        have h0 : chunkVal b m < 500 := by simpa using hmin 0 (by omega)
        rw [if_neg (by omega)]
        have : succIdx b (m + 9) f = some j' := by
          apply ih
          · rw [show m + 9 + 9 * j' = m + 9 * (j' + 1) by ring]; exact hacc
          · intro i hi
            rw [show m + 9 + 9 * i = m + 9 * (i + 1) by ring]
            exact hmin (i + 1) (by omega)
          · omega
        rw [this]
        rfl

/-- The while-loop returns immediately once the accumulator meets the
predicate, regardless of remaining fuel. -/
theorem rno_loop_stop (result fuel : ℕ) (s : SimState) (h : 500 ≤ result) :
    rno_loop result fuel s = (some result, s) := by
  rw [rno_loop.eq_def, if_neg (by omega)]

/-- If every one of the next `fuel` attempts is rejected, the loop consumes
all its fuel, executing exactly `fuel` body iterations. -/
theorem rno_loop_none :
    ∀ (fuel : ℕ) (result : ℕ) (s : SimState), result < 500 →
      succIdx s.bits s.mcount fuel = none →
      rno_loop result fuel s = (none, afterIters fuel s) := by
  intro fuel
  induction fuel with
  | zero => intro result s hr _; rw [rno_loop.eq_def, if_pos hr]; rfl
  | succ f ih =>
      intro result s hr hnone
      rw [succIdx] at hnone
      by_cases h0 : 500 ≤ chunkVal s.bits s.mcount
      · rw [if_pos h0] at hnone; exact absurd hnone (by simp)
      · rw [if_neg h0] at hnone
        have hsub : succIdx s.bits (s.mcount + 9) f = none := by
          cases hc : succIdx s.bits (s.mcount + 9) f with
          | none => rfl
          | some v => rw [hc] at hnone; exact absurd hnone (by simp)
        rw [rno_loop.eq_def, if_pos hr]
        dsimp only
        rw [iter_step_spec]
        dsimp only
        rw [afterIters_succ, iterStep_eq]
        exact ih (chunkVal s.bits s.mcount) _ (by omega) (by dsimp only; exact hsub)

/-- If the first accepted attempt among the next `fuel` ones is the `j`-th,
the loop executes exactly `j + 1` body iterations and returns that
attempt's accumulator. -/
theorem rno_loop_some :
    ∀ (fuel : ℕ) (j : ℕ) (result : ℕ) (s : SimState), result < 500 →
      succIdx s.bits s.mcount fuel = some j →
      rno_loop result fuel s =
        (some (chunkVal s.bits (s.mcount + 9 * j)), afterIters (j + 1) s) := by
  intro fuel
  induction fuel with
  | zero => intro j result s _ h; exact absurd h (by simp [succIdx])
  | succ f ih =>
      intro j result s hr hsome
      rw [succIdx] at hsome
      rw [rno_loop.eq_def, if_pos hr]
      dsimp only
      rw [iter_step_spec]
      dsimp only
      by_cases h0 : 500 ≤ chunkVal s.bits s.mcount
      · rw [if_pos h0] at hsome
        obtain rfl : j = 0 := by simpa using hsome.symm
        rw [rno_loop_stop _ _ _ h0]
        rw [afterIters_succ, afterIters_zero, iterStep_eq]
        simp
      · rw [if_neg h0] at hsome
        cases hc : succIdx s.bits (s.mcount + 9) f with
        | none => rw [hc] at hsome; exact absurd hsome (by simp)
        | some j' =>
            rw [hc] at hsome
            obtain rfl : j = j' + 1 := by simpa using hsome.symm
            rw [afterIters_succ, iterStep_eq]
            rw [show s.mcount + 9 * (j' + 1) = s.mcount + 9 + 9 * j' by ring]
            exact ih j' (chunkVal s.bits s.mcount) _ (by omega) (by dsimp only; exact hc)

/-- The output-recording loop only appends record calls to the trace. -/
theorem record_results_aux_spec :
    ∀ (n : ℕ) (s : SimState),
      record_results_aux n s = { s with trace := s.trace ++ recTrace n } := by
  intro n
  induction n with
  | zero => intro s; simp [record_results_aux, recTrace]
  | succ n ih =>
      intro n_s
      rw [record_results_aux, ih]
      simp [RecordResult, rt_result_record_output, recTrace]

/-- Full characterisation of a fuel-limited run of
`random_numbers_over_500` whose sampling phase finds an accepted attempt:
the accepted accumulator is returned, and the final state is the state after
`j + 1` loop iterations followed by the nine record calls. -/
theorem random_numbers_over_500_some (fuel j : ℕ) (s : SimState)
    (h : succIdx s.bits s.mcount fuel = some j) :
    random_numbers_over_500 fuel s =
      (some (chunkVal s.bits (s.mcount + 9 * j)),
       { bits := s.bits, mcount := s.mcount + 9 * (j + 1),
         slots := (afterIters (j + 1) s).slots,
         trace := s.trace ++ loopTrace (j + 1) ++ recTrace 9 }) := by
  rw [random_numbers_over_500]
  rw [rno_loop_some fuel j 0 s (by omega) h]
  dsimp only
  rw [record_results_aux_spec]
  have h1 := afterIters_bits (j + 1) s
  have h2 := afterIters_mcount (j + 1) s
  have h3 := afterIters_trace (j + 1) s
  cases hA : afterIters (j + 1) s with
  | mk b mc sl tr =>
      rw [hA] at h1 h2 h3
      simp at h1 h2 h3
      simp [h1, h2, h3]

/-- A fuel-limited run whose sampling phase never finds an accepted attempt
returns `none` and performs no record calls. -/
theorem random_numbers_over_500_none (fuel : ℕ) (s : SimState)
    (h : succIdx s.bits s.mcount fuel = none) :
    random_numbers_over_500 fuel s = (none, afterIters fuel s) := by
  rw [random_numbers_over_500, rno_loop_none fuel 0 s (by omega) h]

/-- Key bitwise fact behind `result | (bit << i)`: when `a` has no bits at
position `i` or above and `v` is a single bit, bitwise OR is addition. -/
theorem lor_shiftLeft_eq_add (a v i : ℕ) (ha : a < 2 ^ i) (hv : v ≤ 1) :
    a ||| (v <<< i) = a + v * 2 ^ i := by
  rcases Nat.le_one_iff_eq_zero_or_eq_one.mp hv with rfl | rfl
  · simp
  · rw [Nat.shiftLeft_eq, one_mul]
    apply Nat.eq_of_testBit_eq
    intro j
    rw [Nat.testBit_lor]
    rcases lt_trichotomy j i with hj | rfl | hj
    · rw [Nat.testBit_two_pow_of_ne (by omega), Bool.or_false,
        Nat.testBit_to_div_mod, Nat.testBit_to_div_mod]
      have h2 : 2 ^ i = 2 ^ (i - j) * 2 ^ j := by
        rw [← pow_add]; congr 1; omega
      have h3 : (a + 2 ^ i) / 2 ^ j = a / 2 ^ j + 2 ^ (i - j) := by
        rw [h2, Nat.add_mul_div_right _ _ (Nat.pos_pow_of_pos j (by norm_num))]
      rw [h3]
      have h4 : 2 ^ (i - j) % 2 = 0 := by
        have hne : i - j ≠ 0 := by omega
        rcases Nat.exists_eq_succ_of_ne_zero hne with ⟨k, hk⟩
        rw [hk, pow_succ, Nat.mul_mod_left]
      simp only [decide_eq_decide]
      omega
    · rw [Nat.testBit_two_pow_self, Bool.or_true, Nat.testBit_to_div_mod]
      have h3 : (a + 2 ^ j) / 2 ^ j = 1 := by
        rw [Nat.add_div_right _ (Nat.pos_pow_of_pos j (by norm_num)),
          Nat.div_eq_of_lt ha]
      rw [h3]
      decide
    · rw [Nat.testBit_two_pow_of_ne (by omega), Bool.or_false]
      have h1 : a.testBit j = false := Nat.testBit_eq_false_of_lt (by
        calc a < 2 ^ i := ha
        _ ≤ 2 ^ j := Nat.pow_le_pow_right (by norm_num) (by omega))
      have h2 : (a + 2 ^ i).testBit j = false := Nat.testBit_eq_false_of_lt (by
        have hle : (2 : ℕ) ^ (i + 1) ≤ 2 ^ j := Nat.pow_le_pow_right (by norm_num) (by omega)
        have hs := pow_succ 2 i
        omega)
      rw [h1, h2]

/-- For single-bit oracles the OR/shift accumulation computes the weighted
sum of the consumed bits. -/
theorem chunkAux_eq_add {b : ℕ → ℕ} (hb : ∀ t, b t ≤ 1) :
    ∀ (n m i acc : ℕ), acc < 2 ^ i →
      chunkAux b m i acc n = acc + valBits b m i n := by
  intro n
  induction n with
  | zero => intro m i acc _; simp [chunkAux, valBits]
  | succ n ih =>
      intro m i acc hacc
      rw [chunkAux, valBits]
      rw [lor_shiftLeft_eq_add acc (b m) i hacc (hb m)]
      rw [ih (m + 1) (i + 1) _ (by
        have h1 : b m * 2 ^ i ≤ 2 ^ i := by
          have := Nat.mul_le_mul_right (2 ^ i) (hb m)
          omega
        have h2 := pow_succ 2 i
        omega)]
      omega

theorem valBits_add_pow_le {b : ℕ → ℕ} (hb : ∀ t, b t ≤ 1) :
    ∀ (n m i : ℕ), valBits b m i n + 2 ^ i ≤ 2 ^ (i + n) := by
  intro n
  induction n with
  | zero => intro m i; simp [valBits]
  | succ n ih =>
      intro m i
      rw [valBits]
      have h1 : b m * 2 ^ i ≤ 2 ^ i := by
        have := Nat.mul_le_mul_right (2 ^ i) (hb m)
        omega
      have h2 := ih (m + 1) (i + 1)
      have h3 : i + 1 + n = i + (n + 1) := by omega
      rw [h3] at h2
      have h4 := pow_succ 2 i
      omega

/-- The accumulator of one `measure_as_int` call, for single-bit oracles, is
the weighted sum of its nine consumed bits. -/
theorem chunkVal_eq_valBits {b : ℕ → ℕ} (hb : ∀ t, b t ≤ 1) (m : ℕ) :
    chunkVal b m = valBits b m 0 9 := by
  rw [chunkVal, chunkAux_eq_add hb 9 m 0 0 (by norm_num), Nat.zero_add]

/-- For single-bit oracles every attempt value is at most 511. -/
theorem chunkVal_le_511 {b : ℕ → ℕ} (hb : ∀ t, b t ≤ 1) (m : ℕ) :
    chunkVal b m ≤ 511 := by
  rw [chunkVal_eq_valBits hb]
  have := valBits_add_pow_le hb 9 m 0
  norm_num at this
  omega

/-- Snoc-style unfolding of `valBits`. -/
theorem valBits_succ_last (b : ℕ → ℕ) :
    ∀ (n m i : ℕ), valBits b m i (n + 1) = valBits b m i n + b (m + n) * 2 ^ (i + n) := by
  intro n
  induction n with
  | zero => intro m i; simp [valBits]
  | succ n ih =>
      intro m i
      rw [valBits, ih (m + 1) (i + 1)]
      rw [valBits]
      have h1 : m + 1 + n = m + (n + 1) := by omega
      have h2 : i + 1 + n = i + (n + 1) := by omega
      rw [h1, h2]
      omega

/-- Two oracle windows holding the same values give the same weighted sum. -/
theorem valBits_congr :
    ∀ (n : ℕ) (b1 b2 : ℕ → ℕ) (m1 m2 i : ℕ),
      (∀ j < n, b1 (m1 + j) = b2 (m2 + j)) →
      valBits b1 m1 i n = valBits b2 m2 i n := by
  intro n
  induction n with
  | zero => intro b1 b2 m1 m2 i _; rfl
  | succ n ih =>
      intro b1 b2 m1 m2 i h
      rw [valBits, valBits]
      have h0 : b1 m1 = b2 m2 := by
        have := h 0 (by omega)
        simpa using this
      rw [h0, ih b1 b2 (m1 + 1) (m2 + 1) (i + 1) (by
        intro j hj
        have := h (j + 1) (by omega)
        rw [show m1 + (j + 1) = m1 + 1 + j by omega, show m2 + (j + 1) = m2 + 1 + j by omega] at this
        exact this)]

/-- The recorded order is exactly slots 8 down to 0. -/
theorem declist_nine : declist 9 = [8, 7, 6, 5, 4, 3, 2, 1, 0] := rfl

/-- Most-significant-first decoding equals the weighted little-endian sum of
the slot values. -/
theorem foldl_declist (sl : ℕ → ℕ) :
    ∀ (n acc : ℕ),
      (declist n).foldl (fun a i => 2 * a + sl i) acc =
        acc * 2 ^ n + valBits sl 0 0 n := by
  intro n
  induction n with
  | zero => intro acc; simp [declist, valBits]
  | succ n ih =>
      intro acc
      rw [declist, List.foldl_cons, ih (2 * acc + sl n)]
      rw [valBits_succ_last sl n 0 0]
      have h1 := pow_succ 2 n
      simp only [Nat.zero_add]
      ring_nf

theorem recordedValue_eq_valBits (sl : ℕ → ℕ) :
    recordedValue sl = valBits sl 0 0 9 := by
  rw [recordedValue, foldl_declist sl 9 0]
  omega

theorem recordsOf_append (t1 t2 : List Call) :
    recordsOf (t1 ++ t2) = recordsOf t1 ++ recordsOf t2 :=
  List.filter_append t1 t2

theorem recordsOf_iterTrace : recordsOf iterTrace = [] := rfl

theorem recordsOf_loopTrace : ∀ (k : ℕ), recordsOf (loopTrace k) = [] := by
  intro k
  induction k with
  | zero => rfl
  | succ k ih => rw [loopTrace, recordsOf_append, recordsOf_iterTrace, ih]; rfl

theorem recordsOf_recTrace_nine : recordsOf (recTrace 9) = recTrace 9 := rfl

theorem usedCall_iterTrace : iterTrace.all usedCall = true := rfl

theorem usedCall_loopTrace : ∀ (k : ℕ), (loopTrace k).all usedCall = true := by
  intro k
  induction k with
  | zero => rfl
  | succ k ih => rw [loopTrace, List.all_append, usedCall_iterTrace, ih]; rfl

theorem usedCall_recTrace_nine : (recTrace 9).all usedCall = true := rfl

theorem mresetzDiag_of_mem {l : List Call} (hall : l.all mresetzDiag = true)
    {q r : ℕ} (hmem : Call.mresetz q r ∈ l) : q = r := by
  have := (List.all_eq_true.mp hall) _ hmem
  simpa [mresetzDiag] using this

theorem mresetzDiag_iterTrace : iterTrace.all mresetzDiag = true := rfl

theorem mresetzDiag_loopTrace : ∀ (k : ℕ), (loopTrace k).all mresetzDiag = true := by
  intro k
  induction k with
  | zero => rfl
  | succ k ih => rw [loopTrace, List.all_append, mresetzDiag_iterTrace, ih]; rfl

theorem mresetzDiag_recTrace_nine : (recTrace 9).all mresetzDiag = true := rfl

theorem full_entangle_aux_spec :
    ∀ (n : ℕ) (s : SimState),
      (full_entangle_aux n s).trace = s.trace ++ pairTrace n := by
  intro n
  induction n with
  | zero => intro s; simp [full_entangle_aux, pairTrace]
  | succ n ih =>
      intro s
      rw [full_entangle_aux, ih]
      simp [RecordResult, rt_result_record_output, MResetZ,
        qis_read_result_body, qis_mresetz_body, pairTrace]

theorem mresetzDiag_pairTrace : ∀ (n : ℕ), (pairTrace n).all mresetzDiag = true := by
  intro n
  induction n with
  | zero => rfl
  | succ n ih => rw [pairTrace]; simp [List.all_cons, mresetzDiag, ih]

theorem mresetzDiag_feTrace : feTrace.all mresetzDiag = true := by
  rw [feTrace]
  simp only [List.all_append]
  rw [mresetzDiag_pairTrace 9]
  rfl

/-- Inversion: a terminating fuel-limited run determines a first accepted
attempt index `j`, the returned value, and the final state. -/
theorem run_some_inv (fuel : ℕ) (s : SimState) (r : ℕ) (s' : SimState)
    (h : random_numbers_over_500 fuel s = (some r, s')) :
    ∃ j, succIdx s.bits s.mcount fuel = some j ∧
      r = chunkVal s.bits (s.mcount + 9 * j) ∧
      s' = { bits := s.bits, mcount := s.mcount + 9 * (j + 1),
             slots := (afterIters (j + 1) s).slots,
             trace := s.trace ++ loopTrace (j + 1) ++ recTrace 9 } := by
  cases hc : succIdx s.bits s.mcount fuel with
  | none =>
      rw [random_numbers_over_500_none fuel s hc] at h
      exact absurd (congrArg Prod.fst h) (by simp)
  | some j =>
      rw [random_numbers_over_500_some fuel j s hc] at h
      rw [Prod.mk.injEq] at h
      obtain ⟨h1, h2⟩ := h
      exact ⟨j, rfl, by simpa using h1.symm, h2.symm⟩

/-- Every call in the trace of any fuel-limited entry-point run satisfies a
predicate that holds across one loop iteration and across the record loop. -/
theorem run_trace_all (P : Call → Bool) (hIter : iterTrace.all P = true)
    (hRec : (recTrace 9).all P = true) (b : ℕ → ℕ) (fuel : ℕ) :
    ((ENTRYPOINT__main fuel (initState b)).2.trace).all P = true := by
  have hLoop : ∀ k, (loopTrace k).all P = true := by
    intro k
    induction k with
    | zero => rfl
    | succ k ih => rw [loopTrace, List.all_append, hIter, ih]; rfl
  rw [ENTRYPOINT__main]
  cases hc : succIdx b 0 fuel with
  | none =>
      have hc' : succIdx (initState b).bits (initState b).mcount fuel = none := hc
      rw [random_numbers_over_500_none fuel (initState b) hc']
      have := afterIters_trace fuel (initState b)
      simp only [initState] at this ⊢
      rw [this]
      simpa using hLoop fuel
  | some j =>
      have hc' : succIdx (initState b).bits (initState b).mcount fuel = some j := hc
      rw [random_numbers_over_500_some fuel j (initState b) hc']
      simp only [initState]
      rw [List.nil_append, List.all_append, hLoop (j + 1), hRec]
      rfl

/-- C3: for every pair of integers (c, t), a call to `CX c t` appends
exactly the 3-call intrinsic trace [apply-H on t, apply-controlled-phase on
(c, t), apply-H on t], in that order, and changes nothing else in the
state (in particular it makes no other intrinsic calls). -/
theorem claim_C3 (c t : ℕ) (s : SimState) :
    CX c t s = { s with trace := s.trace ++ [Call.h t, Call.cz c t, Call.h t] } := by
  simp [CX, qis_h_body, qis_cz_body]

/-- C4: each `measure_as_int` call performs MResetZ(i, i) for i = 0..8 in
increasing order (trace `mTrace 0 9`), accumulating
`result = result | (bit << i)` from 0 (the value `chunkAux s.bits s.mcount
0 0 9`), and — assuming each measurement returns 0 or 1 — the returned
accumulator is at most 511 (hence lies in [0, 511]). -/
theorem claim_C4 (s : SimState) :
    measure_as_int s =
      (chunkAux s.bits s.mcount 0 0 9,
       { bits := s.bits, mcount := s.mcount + 9,
         slots := writeSlots s.bits s.mcount 0 9 s.slots,
         trace := s.trace ++ mTrace 0 9 }) ∧
    ((∀ t, s.bits t ≤ 1) → (measure_as_int s).1 ≤ 511) := by
  constructor
  · exact measure_as_int_spec s
  · intro hb
    rw [measure_as_int_spec s]
    exact chunkVal_le_511 hb s.mcount

/-- Witness for C4 at the all-ones backend: the accumulator bound holds on a
concrete state. -/
theorem claim_C4_witness :
    (measure_as_int (initState (fun _ => 1))).1 ≤ 511 :=
  (claim_C4 (initState (fun _ => 1))).2 (fun _ => le_refl 1)

/-- C6: a `full_entangle` run appends exactly the intrinsic call trace
`feTrace`: 1 leading apply-H on qubit 0, the 8 controlled-NOT decompositions
CX(i, i+1) for i = 0..7 in increasing order (24 gate calls), then the nine
per-qubit measure-and-record groups for qubits 8 down to 0, each record
immediately following its own qubit's measurement. -/
theorem claim_C6 (s : SimState) :
    (full_entangle s).trace = s.trace ++ feTrace := by
  rw [full_entangle, full_entangle_aux_spec]
  simp [CX, H, qis_h_body, qis_cz_body, feTrace, cxTrace]

/-- C10: the program is deterministic relative to the backend: two runs of
the entry point over backends whose measurement streams agree pointwise
produce identical results — the same intrinsic call traces (hence the same
recorded output stream) and the same final states. -/
theorem claim_C10 (b1 b2 : ℕ → ℕ) (fuel : ℕ) (h : ∀ n, b1 n = b2 n) :
    ENTRYPOINT__main fuel (initState b1) = ENTRYPOINT__main fuel (initState b2) := by
  have hb : b1 = b2 := funext h
  rw [hb]

/-- Witness for C10 at a concrete pair of identical backends. -/
theorem claim_C10_witness :
    ENTRYPOINT__main 1 (initState (fun _ => 1)) =
      ENTRYPOINT__main 1 (initState (fun _ => 1)) :=
  claim_C10 (fun _ => 1) (fun _ => 1) 1 (fun _ => rfl)

/-- Trace shape of `full_entangle`, shared helper. -/
theorem full_entangle_trace_eq (s : SimState) :
    (full_entangle s).trace = s.trace ++ feTrace := by
  rw [full_entangle, full_entangle_aux_spec]
  simp [CX, H, qis_h_body, qis_cz_body, feTrace, cxTrace]

/-- C9: in every run of both circuit programs, every measure-and-reset call
passes a slot index equal to the qubit index being measured. -/
theorem claim_C9 (b : ℕ → ℕ) (fuel q r : ℕ) :
    (Call.mresetz q r ∈ (ENTRYPOINT__main fuel (initState b)).2.trace → q = r) ∧
    (Call.mresetz q r ∈ (full_entangle (initState b)).trace → q = r) := by
  constructor
  · intro hmem
    exact mresetzDiag_of_mem
      (run_trace_all mresetzDiag mresetzDiag_iterTrace mresetzDiag_recTrace_nine b fuel) hmem
  · intro hmem
    rw [full_entangle_trace_eq (initState b)] at hmem
    have hmem' : Call.mresetz q r ∈ feTrace := by simpa [initState] using hmem
    exact mresetzDiag_of_mem mresetzDiag_feTrace hmem'

/-- Witness for C9: concrete measure-and-reset calls occur in both programs
and have equal indices. -/
theorem claim_C9_witness : (0 : ℕ) = 0 ∧ (8 : ℕ) = 8 :=
  ⟨(claim_C9 (fun _ => 1) 1 0 0).1 (by decide),
   (claim_C9 (fun _ => 1) 1 8 8).2 (by decide)⟩

/-- C2: in every terminating run of the rejection-sampling program the trace
splits into the sampling iterations followed by the records: no record call
occurs during or interleaved with any sampling iteration, the final
iteration `j` is accepted (accumulator at least 500), and every earlier
iteration was rejected. -/
theorem claim_C2 (b : ℕ → ℕ) (fuel r : ℕ) (s' : SimState)
    (h : ENTRYPOINT__main fuel (initState b) = (some r, s')) :
    ∃ j, s'.trace = loopTrace (j + 1) ++ recTrace 9 ∧
      recordsOf (loopTrace (j + 1)) = [] ∧
      500 ≤ attemptVal b j ∧ ∀ i < j, attemptVal b i < 500 := by
  obtain ⟨j, hj, _, hs⟩ := run_some_inv fuel (initState b) r s' h
  simp only [initState] at hj hs
  obtain ⟨hacc, hmin, _⟩ := succIdx_some fuel b 0 j hj
  refine ⟨j, ?_, recordsOf_loopTrace (j + 1), ?_, ?_⟩
  · rw [hs]; rfl
  · rw [attemptVal]
    rw [Nat.zero_add] at hacc
    exact hacc
  · intro i hi
    have := hmin i hi
    rw [Nat.zero_add] at this
    exact this

/-- Witness for C2 at the all-ones backend with fuel 1. -/
theorem claim_C2_witness :
    ∃ j, (ENTRYPOINT__main 1 (initState (fun _ => 1))).2.trace =
        loopTrace (j + 1) ++ recTrace 9 ∧
      recordsOf (loopTrace (j + 1)) = [] ∧
      500 ≤ attemptVal (fun _ => 1) j ∧
      ∀ i < j, attemptVal (fun _ => 1) i < 500 :=
  claim_C2 (fun _ => 1) 1 511 (ENTRYPOINT__main 1 (initState (fun _ => 1))).2
    (Prod.ext (by decide) rfl)

/-- C1: in every terminating run of the rejection-sampling program over a
backend returning single bits, the recorded output stream is exactly the
nine slots 8 down to 0 in decreasing order, and the recorded bits decoded
most-significant-first (slot 8 down to slot 0) give the returned
accumulator, an integer between 500 and 511. -/
theorem claim_C1 (b : ℕ → ℕ) (fuel r : ℕ) (s' : SimState)
    (hb : ∀ t, b t ≤ 1)
    (h : ENTRYPOINT__main fuel (initState b) = (some r, s')) :
    recordsOf s'.trace = recTrace 9 ∧
    recordedValue s'.slots = r ∧ 500 ≤ r ∧ r ≤ 511 := by
  obtain ⟨j, hj, hr, hs⟩ := run_some_inv fuel (initState b) r s' h
  simp only [initState] at hj hr hs
  obtain ⟨hacc, _, _⟩ := succIdx_some fuel b 0 j hj
  rw [Nat.zero_add] at hacc hr
  refine ⟨?_, ?_, ?_, ?_⟩
  · rw [hs]
    show recordsOf (List.nil ++ loopTrace (j + 1) ++ recTrace 9) = recTrace 9
    rw [List.nil_append, recordsOf_append, recordsOf_loopTrace, recordsOf_recTrace_nine,
      List.nil_append]
  · rw [hs]
    show recordedValue (afterIters (j + 1) (initState b)).slots = r
    rw [recordedValue_eq_valBits]
    rw [valBits_congr 9 (afterIters (j + 1) (initState b)).slots b 0 (9 * j) 0 (by
      intro t ht
      rw [afterIters_slots j (initState b) (0 + t)]
      simp only [initState]
      rw [if_pos (by omega)]
      congr 1
      omega)]
    rw [← chunkVal_eq_valBits hb (9 * j)]
    exact hr.symm
  · omega
  · rw [hr]
    exact chunkVal_le_511 hb (9 * j)

/-- Witness for C1 at the all-ones backend with fuel 1. -/
theorem claim_C1_witness :
    recordsOf (ENTRYPOINT__main 1 (initState (fun _ => 1))).2.trace = recTrace 9 ∧
    recordedValue (ENTRYPOINT__main 1 (initState (fun _ => 1))).2.slots = 511 ∧
    500 ≤ 511 ∧ 511 ≤ 511 :=
  claim_C1 (fun _ => 1) 1 511 (ENTRYPOINT__main 1 (initState (fun _ => 1))).2
    (fun _ => le_refl 1) (Prod.ext (by decide) rfl)

/-- C5: the sampling loop has no iteration cap.  For every backend response
stream: some fuel bound suffices for the run to terminate exactly when some
attempt's accumulator is at least 500; and whenever `j` is the first such
attempt, every run given more than `j` iterations of fuel stops right after
attempt `j` — it returns attempt `j`'s accumulator having consumed exactly
`9 * (j + 1)` measurements, independent of the fuel bound. -/
theorem claim_C5 (b : ℕ → ℕ) :
    ((∃ fuel r s', ENTRYPOINT__main fuel (initState b) = (some r, s')) ↔
      ∃ k, 500 ≤ attemptVal b k) ∧
    ∀ j fuel, 500 ≤ attemptVal b j → (∀ i < j, attemptVal b i < 500) →
      j < fuel →
      ENTRYPOINT__main fuel (initState b) =
        (some (attemptVal b j),
         { bits := b, mcount := 9 * (j + 1),
           slots := (afterIters (j + 1) (initState b)).slots,
           trace := loopTrace (j + 1) ++ recTrace 9 }) := by
  have hrun : ∀ j fuel, 500 ≤ attemptVal b j → (∀ i < j, attemptVal b i < 500) →
      j < fuel →
      ENTRYPOINT__main fuel (initState b) =
        (some (attemptVal b j),
         { bits := b, mcount := 9 * (j + 1),
           slots := (afterIters (j + 1) (initState b)).slots,
           trace := loopTrace (j + 1) ++ recTrace 9 }) := by
    intro j fuel hacc hmin hlt
    have hidx : succIdx (initState b).bits (initState b).mcount fuel = some j := by
      apply succIdx_of_min fuel b 0 j
      · rw [Nat.zero_add]; exact hacc
      · intro i hi; rw [Nat.zero_add]; exact hmin i hi
      · exact hlt
    rw [ENTRYPOINT__main, random_numbers_over_500_some fuel j (initState b) hidx]
    simp only [initState]
    rw [Prod.mk.injEq]
    constructor
    · rw [attemptVal, Nat.zero_add]
    · rw [SimState.mk.injEq]
      exact ⟨rfl, by omega, rfl, rfl⟩
  refine ⟨⟨?_, ?_⟩, hrun⟩
  · rintro ⟨fuel, r, s', h⟩
    obtain ⟨j, hj, _, _⟩ := run_some_inv fuel (initState b) r s' h
    simp only [initState] at hj
    obtain ⟨hacc, _, _⟩ := succIdx_some fuel b 0 j hj
    rw [Nat.zero_add] at hacc
    exact ⟨j, hacc⟩
  · rintro ⟨k, hk⟩
    have hex : ∃ k, 500 ≤ attemptVal b k := ⟨k, hk⟩
    let j := Nat.find hex
    have hj : 500 ≤ attemptVal b j := Nat.find_spec hex
    have hmin : ∀ i < j, attemptVal b i < 500 := by
      intro i hi
      have := Nat.find_min hex hi
      omega
    exact ⟨j + 1, attemptVal b j, _, hrun j (j + 1) hj hmin (by omega)⟩

/-- Witness for C5: the all-ones backend succeeds on the very first
attempt, using fuel 1 and 9 measurements. -/
theorem claim_C5_witness :
    ENTRYPOINT__main 1 (initState (fun _ => 1)) =
      (some (attemptVal (fun _ => 1) 0),
       { bits := fun _ => 1, mcount := 9 * (0 + 1),
         slots := (afterIters (0 + 1) (initState (fun _ => 1))).slots,
         trace := loopTrace (0 + 1) ++ recTrace 9 }) :=
  (claim_C5 (fun _ => 1)).2 0 1 (by decide)
    (fun i hi => absurd hi (Nat.not_lt_zero i)) (by decide)

/-- C8 counterexample: no execution of the entry routine ever calls the
apply-X intrinsic, so it is not the case that each of the seven declared
intrinsics is exercised by some execution of `ENTRYPOINT__main`. -/
theorem claim_C8_counterexample :
    ¬ ∃ (b : ℕ → ℕ) (fuel q : ℕ),
        Call.x q ∈ (ENTRYPOINT__main fuel (initState b)).2.trace := by
  rintro ⟨b, fuel, q, hmem⟩
  have hall := run_trace_all usedCall usedCall_iterTrace usedCall_recTrace_nine b fuel
  have := (List.all_eq_true.mp hall) _ hmem
  simp [usedCall] at this

/-- C8 (amended): the boundary consists of seven declared intrinsics, but
executions of `ENTRYPOINT__main` call only four of them — apply-H,
measure-and-reset, read-bit and record-scalar-output — and every
terminating execution calls each of those four at least once; apply-X,
apply-controlled-phase and record-array-output are never called by the
entry routine. -/
theorem claim_C8_amended (b : ℕ → ℕ) (fuel : ℕ) :
    (∀ c ∈ (ENTRYPOINT__main fuel (initState b)).2.trace, usedCall c = true) ∧
    ∀ r s', ENTRYPOINT__main fuel (initState b) = (some r, s') →
      Call.h 0 ∈ s'.trace ∧ Call.mresetz 0 0 ∈ s'.trace ∧
      Call.read 0 ∈ s'.trace ∧ Call.resultRec 0 0 ∈ s'.trace := by
  constructor
  · exact List.all_eq_true.mp
      (run_trace_all usedCall usedCall_iterTrace usedCall_recTrace_nine b fuel)
  · intro r s' h
    obtain ⟨j, _, _, hs⟩ := run_some_inv fuel (initState b) r s' h
    simp only [initState] at hs
    have hiter : ∀ c ∈ iterTrace, c ∈ s'.trace := by
      intro c hc
      rw [hs]
      show c ∈ List.nil ++ loopTrace (j + 1) ++ recTrace 9
      rw [List.nil_append]
      apply List.mem_append_left
      rw [loopTrace]
      exact List.mem_append_left _ hc
    refine ⟨hiter _ (by decide), hiter _ (by decide), hiter _ (by decide), ?_⟩
    rw [hs]
    show Call.resultRec 0 0 ∈ List.nil ++ loopTrace (j + 1) ++ recTrace 9
    rw [List.nil_append]
    exact List.mem_append_right _ (by decide)

/-- Witness for C8 (amended): the four used intrinsics all occur in the
terminating all-ones run. -/
theorem claim_C8_witness :
    Call.h 0 ∈ (ENTRYPOINT__main 1 (initState (fun _ => 1))).2.trace ∧
    Call.mresetz 0 0 ∈ (ENTRYPOINT__main 1 (initState (fun _ => 1))).2.trace ∧
    Call.read 0 ∈ (ENTRYPOINT__main 1 (initState (fun _ => 1))).2.trace ∧
    Call.resultRec 0 0 ∈ (ENTRYPOINT__main 1 (initState (fun _ => 1))).2.trace :=
  (claim_C8_amended (fun _ => 1) 1).2 511
    (ENTRYPOINT__main 1 (initState (fun _ => 1))).2 (Prod.ext (by decide) rfl)

/-- C7: on the scripted backend whose first attempt measures 256 and second
measures 500, the run executes exactly two full sampling iterations
(trace `loopTrace 2` then the records), makes exactly 18 measure-and-reset
calls, and records only the second attempt's bits (slot i holds the bit the
second attempt stored there, decoding to 500). -/
theorem claim_C7 :
    attemptVal scriptC7 0 = 256 ∧
    attemptVal scriptC7 1 = 500 ∧
    (ENTRYPOINT__main 2 (initState scriptC7)).1 = some 500 ∧
    (ENTRYPOINT__main 2 (initState scriptC7)).2.trace = loopTrace 2 ++ recTrace 9 ∧
    mresetzCount (ENTRYPOINT__main 2 (initState scriptC7)).2.trace = 18 ∧
    (ENTRYPOINT__main 2 (initState scriptC7)).2.mcount = 18 ∧
    recordedValue (ENTRYPOINT__main 2 (initState scriptC7)).2.slots = 500 ∧
    (∀ i < 9, (ENTRYPOINT__main 2 (initState scriptC7)).2.slots i = scriptC7 (9 + i)) := by
  decide
